import Mathlib

/-!
Verification of the cleaning / feature-derivation pipeline of
`src/script/preprocessing.py`.

A table cell is absent (`NaN`), numeric, or a string.  Numeric values are
modelled as exact rationals.  Python's `str()` rendering of a float is
modelled by `floatRepr`, including the switch to scientific notation for
values below `1e-4` and at or above `1e16`; regular-expression searches of
the script (`(\d+\.?\d*)` and `(\d+)`) are modelled by `firstNumeral` and
`firstDigitRun`, and Python's `float()` on comma-and-sign-filtered strings
by `pyFloatOpt`.
-/

set_option maxRecDepth 100000

namespace EV

/-- Whitespace characters stripped by Python's `str.strip()` / `str.split()`. -/
def isPySpace (c : Char) : Bool :=
  c == ' ' || c == '\t' || c == '\n' || c == '\r' || c == '\x0b' || c == '\x0c'

/-- `str.strip()` on a list of characters. -/
def pyStrip (l : List Char) : List Char :=
  ((l.dropWhile isPySpace).reverse.dropWhile isPySpace).reverse

/-- `re.sub(r'[^\d\.\-]', '', s)`: keep only digits, dot and minus. -/
def filterNum (l : List Char) : List Char :=
  l.filter (fun c => c.isDigit || c == '.' || c == '-')

/-- Value of a big-endian digit string, as `int()` computes it. -/
def charsToNat (l : List Char) : ℕ :=
  l.foldl (fun a c => 10 * a + (c.toNat - 48)) 0

/-- The character for a decimal digit. -/
def digChar : ℕ → Char
  | 0 => '0' | 1 => '1' | 2 => '2' | 3 => '3' | 4 => '4'
  | 5 => '5' | 6 => '6' | 7 => '7' | 8 => '8' | _ => '9'

/-- The last `k` decimal digits of `f`, most significant first, zero-padded. -/
def padDigits : ℕ → ℕ → List Char
  | 0, _ => []
  | k + 1, f => digChar (f / 10 ^ k) :: padDigits k (f % 10 ^ k)

/-- Fuelled decimal digit count. -/
def numDigitsAux : ℕ → ℕ → ℕ
  | 0, _ => 1
  | fuel + 1, n => if n < 10 then 1 else numDigitsAux fuel (n / 10) + 1

/-- Number of decimal digits of `n` (1 for 0). -/
def numDigits (n : ℕ) : ℕ := numDigitsAux n n

/-- Decimal rendering of a natural number. -/
def natStrChars (n : ℕ) : List Char := padDigits (numDigits n) n

/-- Remove trailing `'0'` characters. -/
def stripTrailZeros (l : List Char) : List Char :=
  (l.reverse.dropWhile (fun c => c == '0')).reverse

/-- Plain (non-scientific) rendering of the value `n / 10^k`, as Python
prints a nonnegative float: integer part, a dot, then the fractional
digits with trailing zeros removed (`"0"` if none remain). -/
def plainChars (n k : ℕ) : List Char :=
  let fr := stripTrailZeros (padDigits k (n % 10 ^ k))
  natStrChars (n / 10 ^ k) ++ '.' :: (if fr.isEmpty then ['0'] else fr)

/-- Fuelled removal of trailing zero digits of a natural number,
returning the stripped number and how many zeros were removed. -/
def stripZerosAux : ℕ → ℕ → ℕ × ℕ
  | 0, n => (n, 0)
  | fuel + 1, n =>
    if n % 10 == 0 && n != 0 then
      let p := stripZerosAux fuel (n / 10)
      (p.1, p.2 + 1)
    else (n, 0)

/-- Remove trailing zero digits of a natural number. -/
def stripZeros (n : ℕ) : ℕ × ℕ := stripZerosAux n n

/-- Exponent digits, zero-padded to width two as Python prints them. -/
def pad2 (n : ℕ) : List Char :=
  if n < 10 then '0' :: natStrChars n else natStrChars n

/-- Scientific rendering of the value `n / 10^k` (mantissa `e` exponent),
as Python prints floats below `1e-4` or at and above `1e16`. -/
def sciChars (n k : ℕ) : List Char :=
  let m := stripZeros n
  let ds := natStrChars m.1
  let e : ℤ := ((ds.length - 1 : ℕ) : ℤ) + (m.2 : ℤ) - (k : ℤ)
  (match ds with
   | [] => ['0']
   | c :: rest => if rest.isEmpty then [c] else c :: '.' :: rest) ++
    'e' :: (if e < 0 then '-' else '+') :: pad2 e.natAbs

/-- Fuelled search for an exponent `k` (starting at `start`) with `d ∣ 10^k`. -/
def findExp : ℕ → ℕ → ℕ → Option ℕ
  | 0, _, _ => none
  | fuel + 1, d, start => if 10 ^ start % d == 0 then some start else findExp fuel d (start + 1)

/-- Smallest `k ≤ d` with `d ∣ 10^k`, if any. -/
def decExpOpt (d : ℕ) : Option ℕ := findExp (d + 1) d 0

/-- Python `str()` of a nonnegative float value, for values whose reduced
denominator divides a power of ten (every value the script produces is of
this form); other denominators render as the empty string (unreachable). -/
def floatReprNN (q : ℚ) : List Char :=
  match decExpOpt q.den with
  | none => []
  | some k =>
    let n := q.num.toNat * (10 ^ k / q.den)
    if (q ≠ 0 ∧ q < 1 / 10000) ∨ 10 ^ 16 ≤ q then sciChars n k else plainChars n k

/-- Python `str()` of a float value. -/
def floatReprChars (q : ℚ) : List Char :=
  if q < 0 then '-' :: floatReprNN (-q) else floatReprNN q

/-- Python `str()` of a float value, as a string. -/
def floatRepr (q : ℚ) : String := String.mk (floatReprChars q)

/-- Python `float()` on a string over the alphabet `[0-9.-]` (all the
script ever parses after filtering): optional leading minus, then digits
with at most one dot; anything else fails. -/
def pyFloatOpt (l : List Char) : Option ℚ :=
  let mag := fun (m : List Char) =>
    let ip := m.takeWhile Char.isDigit
    match m.dropWhile Char.isDigit with
    | [] => if ip.isEmpty then none else some ((charsToNat ip : ℚ))
    | '.' :: fr =>
      if fr.all Char.isDigit && !(ip.isEmpty && fr.isEmpty) then
        some ((charsToNat ip : ℚ) + (charsToNat fr : ℚ) / 10 ^ fr.length)
      else none
    | _ => none
  match l with
  | '-' :: t => (mag t).map (fun x => -x)
  | _ => mag l

/-- The match of `\d+\.?\d*` anchored at the head of `l` (head is a digit):
a maximal digit run, then optionally a dot and another maximal digit run. -/
def numTail (l : List Char) : List Char :=
  let ds := l.takeWhile Char.isDigit
  match l.dropWhile Char.isDigit with
  | '.' :: r => ds ++ '.' :: r.takeWhile Char.isDigit
  | _ => ds

/-- `re.search(r'(\d+\.?\d*)', s)`: leftmost match of a decimal-or-integer
numeral, if any. -/
def firstNumeral : List Char → Option (List Char)
  | [] => none
  | c :: t => if c.isDigit then some (numTail (c :: t)) else firstNumeral t

/-- `float()` of a matched numeral (digits, optionally a dot and digits). -/
def numeralVal (m : List Char) : ℚ :=
  let ip := m.takeWhile Char.isDigit
  match m.dropWhile Char.isDigit with
  | '.' :: fr => (charsToNat ip : ℚ) + (charsToNat fr : ℚ) / 10 ^ fr.length
  | _ => (charsToNat ip : ℚ)

/-- `re.search(r'(\d+)', s)`: leftmost maximal run of digits, if any. -/
def firstDigitRun : List Char → Option (List Char)
  | [] => none
  | c :: t => if c.isDigit then some ((c :: t).takeWhile Char.isDigit) else firstDigitRun t

/-- A table cell: absent (`NaN`), a numeric value, or a string. -/
inductive Cell where
  | na : Cell
  | num : ℚ → Cell
  | str : String → Cell
deriving DecidableEq

/-- Python `str(val)` of a non-absent cell. -/
def cellStr : Cell → String
  | .na => ""
  | .num q => floatRepr q
  | .str s => s

/-- `clean_value` inside `clean_numeric_column`: absent stays absent; a
numeric value is kept unless `remove_negative` and negative; any other
value is stringified, stripped, filtered to `[0-9.-]` and parsed as a
float, parse failure or (with `remove_negative`) a negative result giving
absent. -/
def clean_value (removeNegative : Bool) : Cell → Cell
  | .na => .na
  | .num v => if 0 ≤ v ∨ removeNegative = false then .num v else .na
  | .str s =>
    match pyFloatOpt (filterNum (pyStrip s.data)) with
    | some v => if removeNegative = true ∧ v < 0 then .na else .num v
    | none => .na

/-- `clean_numeric_column`: apply `clean_value` to every cell. -/
def clean_numeric_column (series : List Cell) (removeNegative : Bool) : List Cell :=
  series.map (clean_value removeNegative)

/-- `extract_rating_from_text`: absent stays absent; otherwise stringify,
find the first numeral; if it exceeds 5 divide by 10 when it exceeds 10
and by 2 otherwise; keep the result only if it lies in `[0, 5]`. -/
def extract_rating_from_text (text : Cell) : Cell :=
  match text with
  | .na => .na
  | t =>
    match firstNumeral (cellStr t).data with
    | some m =>
      let rating := numeralVal m
      let rating := if rating > 5 then (if rating > 10 then rating / 10 else rating / 2) else rating
      if 0 ≤ rating ∧ rating ≤ 5 then .num rating else .na
    | none => .na

/-- `clean_rating` inside `clean_num_ratings`: absent stays absent;
stringify, drop commas, drop minus signs, parse the first digit run as an
integer; no digit run gives absent. -/
def clean_rating_cell (val : Cell) : Cell :=
  match val with
  | .na => .na
  | v =>
    match firstDigitRun (((cellStr v).data.filter (fun c => c != ',')).filter (fun c => c != '-')) with
    | some ds => .num (charsToNat ds)
    | none => .na

/-- `clean_num_ratings`: apply `clean_rating` to every cell. -/
def clean_num_ratings (series : List Cell) : List Cell :=
  series.map clean_rating_cell

/-- Round half to even (numpy's rounding), at integer precision. -/
def rhe (x : ℚ) : ℤ :=
  let f := ⌊x⌋
  if x - f < 1 / 2 then f
  else if (1 : ℚ) / 2 < x - f then f + 1
  else if f % 2 = 0 then f else f + 1

/-- `.round(2)`: round to two decimal places. -/
def round2 (x : ℚ) : ℚ := (rhe (x * 100) : ℚ) / 100

/-- One table row: the named columns of the script plus the passthrough
columns (`extra`). -/
@[ext] structure Row where
  product_name : Cell
  brand : Cell
  platform : Cell
  seller_name : Cell
  price : Cell
  mrp : Cell
  discount_percent : Cell
  product_rating : Cell
  review_rating : Cell
  num_ratings : Cell
  review_text : Cell
  price_mrp_ratio : Cell
  suspicious_pricing : Cell
  has_review : Cell
  rating_quality_score : Cell
  extra : List Cell
deriving DecidableEq

/-- Step 2.3: back-fill `discount_percent` from cleaned price and mrp when
it is absent and both are present. -/
def discountStep (d p m : Cell) : Cell :=
  match d, p, m with
  | .na, .num pv, .num mv => .num (round2 ((mv - pv) / mv * 100))
  | d', _, _ => d'

/-- First whitespace-delimited token (`.str.split().str[0]`), absent for a
whitespace-only string. -/
def firstTokenCell (s : String) : Cell :=
  match (s.data.dropWhile isPySpace).takeWhile (fun c => !(isPySpace c)) with
  | [] => .na
  | w => .str (String.mk w)

/-- Step 2.7: back-fill `brand` from `product_name` when brand is absent;
the pandas `.str` accessor yields `NaN` on non-string product names. -/
def brandStep (brand pn : Cell) : Cell :=
  match brand, pn with
  | .na, .str s => firstTokenCell s
  | .na, _ => .na
  | b, _ => b

/-- Step 2.8: `price_mrp_ratio` via `np.where(price.notna & mrp.notna & (mrp > 0), price/mrp, nan)`. -/
def ratioStep (p m : Cell) : Cell :=
  match p, m with
  | .num pv, .num mv => if 0 < mv then .num (pv / mv) else .na
  | _, _ => .na

/-- Step 2.8: `suspicious_pricing = (price_mrp_ratio < 0.5).astype(int)`;
`NaN < 0.5` is false, so absence maps to 0. -/
def suspStep (ratio : Cell) : Cell :=
  match ratio with
  | .num x => .num (if x < 1 / 2 then 1 else 0)
  | _ => .num 0

/-- Step 2.8: `has_review = review_text.notna().astype(int)`. -/
def reviewStep (rt : Cell) : Cell :=
  match rt with
  | .na => .num 0
  | _ => .num 1

/-- Step 2.8: `rating_quality_score = np.where(both present, product_rating * log1p(num_ratings), nan)`;
the (transcendental) `log1p` is an arbitrary parameter of the model. -/
def rqsStep (log1p : ℚ → ℚ) (pr nr : Cell) : Cell :=
  match pr, nr with
  | .num a, .num b => .num (a * log1p b)
  | _, _ => .na

/-- Step 2.9: `fillna('Unknown')`. -/
def fillUnknown (c : Cell) : Cell :=
  match c with
  | .na => .str "Unknown"
  | c' => c'

/-- `preprocess_data` on one row, in the exact step order of the script:
2.1 price, 2.2 mrp, 2.3 discount back-fill, 2.4 product_rating,
2.5 num_ratings, 2.6 review_rating, 2.7 brand back-fill, 2.8 derived
features, 2.9 categorical fill. -/
def preprocessRow (log1p : ℚ → ℚ) (r : Row) : Row :=
  let r1 := { r with price := clean_value true r.price }
  let r2 := { r1 with mrp := clean_value true r1.mrp }
  let r3 := { r2 with discount_percent := discountStep r2.discount_percent r2.price r2.mrp }
  let r4 := { r3 with product_rating := extract_rating_from_text r3.product_rating }
  let r5 := { r4 with num_ratings := clean_rating_cell r4.num_ratings }
  let r6 := { r5 with review_rating := extract_rating_from_text r5.review_rating }
  let r7 := { r6 with brand := brandStep r6.brand r6.product_name }
  let r8 := { r7 with price_mrp_ratio := ratioStep r7.price r7.mrp }
  let r9 := { r8 with suspicious_pricing := suspStep r8.price_mrp_ratio }
  let r10 := { r9 with has_review := reviewStep r9.review_text }
  let r11 := { r10 with rating_quality_score := rqsStep log1p r10.product_rating r10.num_ratings }
  let r12 := { r11 with platform := fillUnknown r11.platform }
  { r12 with seller_name := fillUnknown r12.seller_name }

/-- `preprocess_data` on a table: the per-row transform mapped over the rows. -/
def preprocess_data (log1p : ℚ → ℚ) (df : List Row) : List Row :=
  df.map (preprocessRow log1p)

/-- The spec's canonical ordering: all base-column cleanings (spec 4.1-4.3)
first, then the whole derived-feature pass (spec 4.4). -/
def canonicalRow (log1p : ℚ → ℚ) (r : Row) : Row :=
  let b1 := { r with price := clean_value true r.price }
  let b2 := { b1 with mrp := clean_value true b1.mrp }
  let b3 := { b2 with product_rating := extract_rating_from_text b2.product_rating }
  let b4 := { b3 with review_rating := extract_rating_from_text b3.review_rating }
  let b5 := { b4 with num_ratings := clean_rating_cell b4.num_ratings }
  let d1 := { b5 with discount_percent := discountStep b5.discount_percent b5.price b5.mrp }
  let d2 := { d1 with brand := brandStep d1.brand d1.product_name }
  let d3 := { d2 with price_mrp_ratio := ratioStep d2.price d2.mrp }
  let d4 := { d3 with suspicious_pricing := suspStep d3.price_mrp_ratio }
  let d5 := { d4 with has_review := reviewStep d4.review_text }
  let d6 := { d5 with rating_quality_score := rqsStep log1p d5.product_rating d5.num_ratings }
  let d7 := { d6 with platform := fillUnknown d6.platform }
  { d7 with seller_name := fillUnknown d7.seller_name }

/-- Modelled from the spec (4.1): the numeric normalizer, rule by rule. -/
def cleanNumericSpec (removeNegative : Bool) (v : Cell) : Cell :=
  match v with
  | .na => .na
  | .num q => if removeNegative = true ∧ q < 0 then .na else .num q
  | .str s =>
    match pyFloatOpt (filterNum (pyStrip s.data)) with
    | none => .na
    | some q => if removeNegative = true ∧ q < 0 then .na else .num q

/-- Modelled from the spec (4.2): the rescale heuristic. -/
def rescaleSpec (n : ℚ) : ℚ :=
  if n ≤ 5 then n else if 10 < n then n / 10 else n / 2

/-- Modelled from the spec (4.2): clamp-reject outside `[0, 5]`. -/
def clampRejectSpec (n : ℚ) : Cell :=
  if n < 0 ∨ 5 < n then .na else .num n

/-- Modelled from the spec (4.2): the rating-text extractor. -/
def extractRatingSpec (v : Cell) : Cell :=
  match v with
  | .na => .na
  | t =>
    match firstNumeral (cellStr t).data with
    | none => .na
    | some m => clampRejectSpec (rescaleSpec (numeralVal m))

/-- Modelled from the spec (4.3): the rating-count extractor. -/
def extractCountSpec (v : Cell) : Cell :=
  match v with
  | .na => .na
  | t =>
    match firstDigitRun ((cellStr t).data.filter (fun c => c != ',' && c != '-')) with
    | none => .na
    | some ds => .num (charsToNat ds)

/-- A cell that is absent or numeric (never a leftover string). -/
def numOrNa : Cell → Prop
  | .str _ => False
  | _ => True

/-- A cell whose numeric value, if any, is nonnegative. -/
def nonnegCell : Cell → Prop
  | .num q => 0 ≤ q
  | _ => True

/-- A cell whose numeric value, if any, lies in `[0, 5]`. -/
def ratingRange : Cell → Prop
  | .num q => 0 ≤ q ∧ q ≤ 5
  | _ => True

/-- A cell whose numeric value, if any, is a natural number. -/
def countNat : Cell → Prop
  | .num q => ∃ n : ℕ, q = (n : ℚ)
  | _ => True

/-- A cleaned rating cell that Python renders in plain decimal notation:
zero or at least `1e-4` (ratings are at most 5, far below `1e16`). -/
def plainRatB : Cell → Bool
  | .num q => decide (q = 0 ∨ 1 / 10000 ≤ q)
  | _ => true

/-- A cleaned count cell that Python renders in plain decimal notation:
below `1e16`. -/
def countOkB : Cell → Bool
  | .num q => decide (q < 10 ^ 16)
  | _ => true

/-- A rational with a finite decimal expansion: every numeric value the
script produces (parsed decimal numerals, halved or divided by ten). -/
def DecFin (q : ℚ) : Prop := ∃ n k : ℕ, q = (n : ℚ) / 10 ^ k

/-- A row whose named cells are all absent and with no passthrough cells. -/
def rowNa : Row :=
  { product_name := .na, brand := .na, platform := .na, seller_name := .na
    price := .na, mrp := .na, discount_percent := .na, product_rating := .na
    review_rating := .na, num_ratings := .na, review_text := .na
    price_mrp_ratio := .na, suspicious_pricing := .na, has_review := .na
    rating_quality_score := .na, extra := [] }

/-- Example row: price 80, mrp 100, discount absent. -/
def rowEx80 : Row := { rowNa with price := Cell.num 80, mrp := Cell.num 100 }

/-- Example row: price 80, mrp 100, discount originally 77. -/
def rowEx80d : Row := { rowEx80 with discount_percent := Cell.num 77 }

/-- Example row: price 40, mrp 100. -/
def rowEx40 : Row := { rowNa with price := Cell.num 40, mrp := Cell.num 100 }

/-- Example row: price 60, mrp 100. -/
def rowEx60 : Row := { rowNa with price := Cell.num 60, mrp := Cell.num 100 }

/-- Example row: only mrp 100 present. -/
def rowExMrp : Row := { rowNa with mrp := Cell.num 100 }

/-- Example row: a rating whose cleaned value is rendered in scientific
notation by Python (`0.00001` cleans to `1e-05`). -/
def rowSci : Row := { rowNa with product_rating := Cell.str "0.00001" }

/-- Example row with plainly rendered cleaned rating and count. -/
def rowExPlain : Row :=
  { rowNa with product_rating := Cell.str "4.5", num_ratings := Cell.str "1,234" }


/-! ### Arithmetic of digit strings -/

theorem foldl_digit_from (l : List Char) (a : ℕ) :
    l.foldl (fun x c => 10 * x + (c.toNat - 48)) a = a * 10 ^ l.length + charsToNat l := by
  induction l generalizing a with
  | nil => simp [charsToNat]
  | cons c t ih =>
    simp only [List.foldl_cons, List.length_cons, charsToNat]
    rw [ih (10 * a + (c.toNat - 48)), ih (10 * 0 + (c.toNat - 48))]
    ring

theorem charsToNat_cons (c : Char) (t : List Char) :
    charsToNat (c :: t) = (c.toNat - 48) * 10 ^ t.length + charsToNat t := by
  have h := foldl_digit_from t (c.toNat - 48)
  simpa [charsToNat] using h

theorem charsToNat_append (A B : List Char) :
    charsToNat (A ++ B) = charsToNat A * 10 ^ B.length + charsToNat B := by
  unfold charsToNat
  rw [List.foldl_append]
  exact foldl_digit_from B _

theorem charsToNat_cons_zero (l : List Char) : charsToNat ('0' :: l) = charsToNat l := rfl

theorem charsToNat_replicate (z : ℕ) : charsToNat (List.replicate z '0') = 0 := by
  induction z with
  | zero => rfl
  | succ n ih => rw [List.replicate_succ, charsToNat_cons_zero, ih]

theorem charsToNat_append_zeros (A : List Char) (z : ℕ) :
    charsToNat (A ++ List.replicate z '0') = charsToNat A * 10 ^ z := by
  rw [charsToNat_append, charsToNat_replicate, List.length_replicate, Nat.add_zero]

theorem digChar_isDigit (d : ℕ) : (digChar d).isDigit = true := by
  unfold digChar
  split <;> rfl

theorem digChar_val (d : ℕ) (h : d < 10) : (digChar d).toNat - 48 = d := by
  interval_cases d <;> rfl

theorem padDigits_length (k f : ℕ) : (padDigits k f).length = k := by
  induction k generalizing f with
  | zero => rfl
  | succ n ih => simp [padDigits, ih]

theorem padDigits_digits (k : ℕ) : ∀ f, ∀ c ∈ padDigits k f, c.isDigit = true := by
  induction k with
  | zero => intro f c hc; simp [padDigits] at hc
  | succ n ih =>
    intro f c hc
    rw [padDigits] at hc
    rcases List.mem_cons.mp hc with h | h
    · subst h; exact digChar_isDigit _
    · exact ih _ c h

theorem padDigits_val (k : ℕ) : ∀ f, f < 10 ^ k → charsToNat (padDigits k f) = f := by
  induction k with
  | zero =>
    intro f hf
    interval_cases f
    rfl
  | succ n ih =>
    intro f hf
    have hd : f / 10 ^ n < 10 := by
      rw [Nat.div_lt_iff_lt_mul (by positivity)]
      rw [pow_succ] at hf
      linarith
    rw [padDigits, charsToNat_cons, padDigits_length, digChar_val _ hd,
      ih _ (Nat.mod_lt _ (by positivity))]
    rw [mul_comm]
    exact Nat.div_add_mod f (10 ^ n)

theorem numDigitsAux_pos (fuel n : ℕ) : 1 ≤ numDigitsAux fuel n := by
  cases fuel with
  | zero => exact le_refl 1
  | succ m =>
    rw [numDigitsAux]
    split
    · exact le_refl 1
    · omega

theorem numDigitsAux_bound : ∀ fuel n, n ≤ fuel → n < 10 ^ numDigitsAux fuel n := by
  intro fuel
  induction fuel with
  | zero =>
    intro n hn
    interval_cases n
    simp [numDigitsAux]
  | succ m ih =>
    intro n hn
    rw [numDigitsAux]
    split
    · next h => rw [pow_one]; exact h
    · next h =>
      push_neg at h
      have h1 : n / 10 ≤ m := by
        have := Nat.div_lt_self (show 0 < n by omega) (show 1 < 10 by omega)
        omega
      have h2 := ih (n / 10) h1
      rw [pow_succ]
      have h3 : n < (n / 10 + 1) * 10 := by omega
      calc n < (n / 10 + 1) * 10 := h3
        _ ≤ 10 ^ numDigitsAux m (n / 10) * 10 := Nat.mul_le_mul_right _ h2

theorem natStr_val (n : ℕ) : charsToNat (natStrChars n) = n :=
  padDigits_val _ n (numDigitsAux_bound n n le_rfl)

theorem natStr_digits (n : ℕ) : ∀ c ∈ natStrChars n, c.isDigit = true :=
  padDigits_digits _ n

theorem natStr_ne_nil (n : ℕ) : natStrChars n ≠ [] := by
  intro hc
  have h := padDigits_length (numDigits n) n
  rw [show natStrChars n = padDigits (numDigits n) n from rfl] at hc
  rw [hc] at h
  have h2 : 1 ≤ numDigits n := numDigitsAux_pos n n
  simp at h
  omega

/-! ### takeWhile / dropWhile over digit blocks -/

theorem takeWhile_append_all {p : Char → Bool} {A : List Char} (B : List Char)
    (h : ∀ a ∈ A, p a = true) : (A ++ B).takeWhile p = A ++ B.takeWhile p := by
  induction A with
  | nil => simp
  | cons c t ih =>
    have hc : p c = true := h c (List.mem_cons_self c t)
    simp only [List.cons_append, List.takeWhile_cons, hc, if_true]
    rw [ih (fun a ha => h a (List.mem_cons_of_mem c ha))]

theorem dropWhile_append_all {p : Char → Bool} {A : List Char} (B : List Char)
    (h : ∀ a ∈ A, p a = true) : (A ++ B).dropWhile p = B.dropWhile p := by
  induction A with
  | nil => simp
  | cons c t ih =>
    have hc : p c = true := h c (List.mem_cons_self c t)
    simp only [List.cons_append, List.dropWhile_cons, hc, if_true]
    exact ih (fun a ha => h a (List.mem_cons_of_mem c ha))

theorem takeWhile_all {p : Char → Bool} {A : List Char} (h : ∀ a ∈ A, p a = true) :
    A.takeWhile p = A := by
  simpa using h

/-! ### Trailing-zero stripping -/

theorem stripTrail_decomp (l : List Char) :
    l = stripTrailZeros l ++
      List.replicate ((l.reverse.takeWhile (fun c => c == '0')).length) '0' := by
  have hz : ∀ b ∈ l.reverse.takeWhile (fun c => c == '0'), b = '0' :=
    fun b hb => eq_of_beq (List.mem_takeWhile_imp (p := fun c => c == '0') hb)
  conv_lhs => rw [← l.reverse_reverse,
    ← List.takeWhile_append_dropWhile (fun c => c == '0') l.reverse]
  rw [List.reverse_append]
  unfold stripTrailZeros
  congr 1
  conv_lhs => rw [List.eq_replicate_of_mem hz]
  rw [List.reverse_replicate]

theorem stripTrail_sub (l : List Char) (c : Char) (h : c ∈ stripTrailZeros l) : c ∈ l := by
  have h2 := stripTrail_decomp l
  rw [h2]
  exact List.mem_append_left _ h

/-! ### Numeric normalizer: source versus spec (C2 support) -/

theorem clean_value_eq_spec (rn : Bool) (v : Cell) : clean_value rn v = cleanNumericSpec rn v := by
  cases v with
  | na => rfl
  | num q =>
    cases rn with
    | false => simp [clean_value, cleanNumericSpec]
    | true =>
      by_cases h : 0 ≤ q
      · simp [clean_value, cleanNumericSpec, h, not_lt.mpr h]
      · simp [clean_value, cleanNumericSpec, h, not_le.mp h]
  | str s =>
    cases hp : pyFloatOpt (filterNum (pyStrip s.data)) with
    | none => simp [clean_value, cleanNumericSpec, hp]
    | some q => simp [clean_value, cleanNumericSpec, hp]

theorem clean_value_numOrNa (rn : Bool) (v : Cell) : numOrNa (clean_value rn v) := by
  cases v with
  | na => trivial
  | num q => by_cases h : 0 ≤ q ∨ rn = false <;> simp [clean_value, h, numOrNa]
  | str s =>
    cases hp : pyFloatOpt (filterNum (pyStrip s.data)) with
    | none => simp [clean_value, hp, numOrNa]
    | some q => by_cases h : rn = true ∧ q < 0 <;> simp [clean_value, hp, h, numOrNa]

theorem clean_value_nonneg (v : Cell) : nonnegCell (clean_value true v) := by
  cases v with
  | na => trivial
  | num q =>
    by_cases h : 0 ≤ q
    · simp only [clean_value, h, true_or, if_true, nonnegCell]
    · simp [clean_value, h, nonnegCell]
  | str s =>
    cases hp : pyFloatOpt (filterNum (pyStrip s.data)) with
    | none => simp [clean_value, hp, nonnegCell]
    | some q =>
      by_cases h : q < 0
      · simp [clean_value, hp, h, nonnegCell]
      · simpa [clean_value, hp, h, nonnegCell] using not_lt.mp h

/-! ### Rating extractor: source versus spec (C1 support) -/

theorem rescale_eq (n : ℚ) :
    (if n > 5 then if n > 10 then n / 10 else n / 2 else n) = rescaleSpec n := by
  unfold rescaleSpec
  rcases le_or_lt n 5 with h | h
  · rw [if_neg (not_lt.mpr h), if_pos h]
  · rw [if_pos h, if_neg (not_le.mpr h)]

theorem clamp_eq (x : ℚ) :
    (if 0 ≤ x ∧ x ≤ 5 then Cell.num x else Cell.na) = clampRejectSpec x := by
  unfold clampRejectSpec
  by_cases h : 0 ≤ x ∧ x ≤ 5
  · rw [if_pos h, if_neg]
    push_neg
    exact ⟨h.1, h.2⟩
  · rw [if_neg h, if_pos]
    by_contra hc
    push_neg at hc
    exact h ⟨hc.1, hc.2⟩

theorem extract_of_none (v : Cell) (h : firstNumeral (cellStr v).data = none) :
    extract_rating_from_text v = .na := by
  cases v <;> simp [extract_rating_from_text, h]

theorem extract_of_some (v : Cell) (m : List Char) (hv : v ≠ .na)
    (hm : firstNumeral (cellStr v).data = some m) :
    extract_rating_from_text v = clampRejectSpec (rescaleSpec (numeralVal m)) := by
  cases v with
  | na => exact absurd rfl hv
  | num q =>
    simp only [extract_rating_from_text, hm]
    rw [rescale_eq, clamp_eq]
  | str s =>
    simp only [extract_rating_from_text, hm]
    rw [rescale_eq, clamp_eq]

theorem extractRatingSpec_of_some (v : Cell) (m : List Char) (hv : v ≠ .na)
    (hm : firstNumeral (cellStr v).data = some m) :
    extractRatingSpec v = clampRejectSpec (rescaleSpec (numeralVal m)) := by
  cases v with
  | na => exact absurd rfl hv
  | num q => simp only [extractRatingSpec, hm]
  | str s => simp only [extractRatingSpec, hm]

theorem extract_eq_spec (v : Cell) : extract_rating_from_text v = extractRatingSpec v := by
  by_cases hv : v = .na
  · rw [hv]; rfl
  cases hm : firstNumeral (cellStr v).data with
  | none =>
    rw [extract_of_none v hm]
    cases v with
    | na => rfl
    | num q => simp [extractRatingSpec, hm]
    | str s => simp [extractRatingSpec, hm]
  | some m => rw [extract_of_some v m hv hm, extractRatingSpec_of_some v m hv hm]

theorem numeralVal_nonneg (m : List Char) : 0 ≤ numeralVal m := by
  unfold numeralVal
  split <;> positivity

theorem numeralVal_decFin (m : List Char) : DecFin (numeralVal m) := by
  unfold numeralVal DecFin
  split
  · next fr _ =>
    refine ⟨charsToNat (m.takeWhile Char.isDigit) * 10 ^ fr.length + charsToNat fr,
      fr.length, ?_⟩
    have h10 : ((10 : ℚ)) ^ fr.length ≠ 0 := by positivity
    push_cast
    field_simp
  · exact ⟨charsToNat (m.takeWhile Char.isDigit), 0, by simp⟩

theorem decFin_rescale (n : ℚ) (h : DecFin n) : DecFin (rescaleSpec n) := by
  obtain ⟨a, k, rfl⟩ := h
  have h10 : ((10 : ℚ)) ^ k ≠ 0 := by positivity
  unfold rescaleSpec
  split_ifs
  · exact ⟨a, k, rfl⟩
  · refine ⟨a, k + 1, ?_⟩
    rw [pow_succ]
    field_simp
  · refine ⟨5 * a, k + 1, ?_⟩
    rw [pow_succ]
    push_cast
    field_simp
    ring

theorem extract_cases (v : Cell) :
    extract_rating_from_text v = .na ∨
      ∃ q, extract_rating_from_text v = .num q ∧ 0 ≤ q ∧ q ≤ 5 ∧ DecFin q := by
  by_cases hv : v = .na
  · left; rw [hv]; rfl
  cases hm : firstNumeral (cellStr v).data with
  | none => left; exact extract_of_none v hm
  | some m =>
    rw [extract_of_some v m hv hm]
    unfold clampRejectSpec
    by_cases h : rescaleSpec (numeralVal m) < 0 ∨ 5 < rescaleSpec (numeralVal m)
    · left; exact if_pos h
    · push_neg at h
      right
      exact ⟨_, if_neg (by push_neg; exact h), h.1, h.2, decFin_rescale _ (numeralVal_decFin m)⟩

theorem extract_numOrNa (v : Cell) : numOrNa (extract_rating_from_text v) := by
  rcases extract_cases v with h | ⟨q, h, _⟩ <;> rw [h] <;> trivial

theorem extract_ratingRange (v : Cell) : ratingRange (extract_rating_from_text v) := by
  rcases extract_cases v with h | ⟨q, h, h1, h2, _⟩ <;> rw [h]
  · trivial
  · exact ⟨h1, h2⟩

/-! ### Count extractor: source versus spec (C3 support) -/

theorem filters_eq (l : List Char) :
    (l.filter (fun c => c != ',')).filter (fun c => c != '-') =
      l.filter (fun c => c != ',' && c != '-') := by
  rw [List.filter_filter]
  exact List.filter_congr (fun a _ => Bool.and_comm _ _)

theorem countBody_eq (l : List Char) :
    (match firstDigitRun ((l.filter (fun c => c != ',')).filter (fun c => c != '-')) with
     | some ds => Cell.num (charsToNat ds)
     | none => Cell.na) =
    (match firstDigitRun (l.filter (fun c => c != ',' && c != '-')) with
     | none => Cell.na
     | some ds => Cell.num (charsToNat ds)) := by
  rw [filters_eq]
  cases firstDigitRun (l.filter (fun c => c != ',' && c != '-')) <;> rfl

theorem count_eq_spec (v : Cell) : clean_rating_cell v = extractCountSpec v := by
  cases v with
  | na => rfl
  | num q => exact countBody_eq (cellStr (Cell.num q)).data
  | str s => exact countBody_eq (cellStr (Cell.str s)).data

theorem countBody_cases (l : List Char) :
    (match firstDigitRun ((l.filter (fun c => c != ',')).filter (fun c => c != '-')) with
     | some ds => Cell.num (charsToNat ds)
     | none => Cell.na) = Cell.na ∨
      ∃ n : ℕ, (match firstDigitRun ((l.filter (fun c => c != ',')).filter (fun c => c != '-')) with
       | some ds => Cell.num (charsToNat ds)
       | none => Cell.na) = Cell.num (n : ℚ) := by
  cases firstDigitRun ((l.filter (fun c => c != ',')).filter (fun c => c != '-')) with
  | none => left; rfl
  | some ds => right; exact ⟨charsToNat ds, rfl⟩

theorem count_cases (v : Cell) :
    clean_rating_cell v = .na ∨ ∃ n : ℕ, clean_rating_cell v = .num (n : ℚ) := by
  cases v with
  | na => left; rfl
  | num q => exact countBody_cases (cellStr (Cell.num q)).data
  | str s => exact countBody_cases (cellStr (Cell.str s)).data

/-- C1: the rating-text extractor agrees with the spec algorithm on every
cell (absence preserved, first numeral, rescale by 10 or 2, clamp-reject),
and on the four spec examples. -/
theorem c1_rating_extractor (v : Cell) :
    extract_rating_from_text v = extractRatingSpec v ∧
      extract_rating_from_text (.str "4.5 out of 5 stars") = .num (9 / 2) ∧
      extract_rating_from_text (.str "9") = .num (9 / 2) ∧
      extract_rating_from_text (.str "95") = .na ∧
      extract_rating_from_text .na = .na :=
  ⟨extract_eq_spec v, by with_unfolding_all rfl, by with_unfolding_all rfl,
    by with_unfolding_all rfl, rfl⟩

/-- C2: the numeric normalizer with `remove_negative = true` follows the
spec's ordered rules, and its output is always absent or a nonnegative
number, so a cleaned price column never holds a negative value. -/
theorem c2_numeric_normalizer (v : Cell) (col : List Cell) :
    clean_value true v = cleanNumericSpec true v ∧
      nonnegCell (clean_value true v) ∧ numOrNa (clean_value true v) ∧
      List.Forall nonnegCell (clean_numeric_column col true) := by
  refine ⟨clean_value_eq_spec true v, clean_value_nonneg v, clean_value_numOrNa true v, ?_⟩
  rw [List.forall_iff_forall_mem]
  intro c hc
  obtain ⟨a, _, rfl⟩ := List.mem_map.mp hc
  exact clean_value_nonneg a

/-- C3: the rating-count extractor agrees with the spec algorithm on every
cell (absence preserved, commas and minus signs stripped, first digit run
parsed), and on the three spec examples. -/
theorem c3_count_extractor (v : Cell) :
    clean_rating_cell v = extractCountSpec v ∧
      clean_rating_cell (.str "12,345") = .num 12345 ∧
      clean_rating_cell (.str "-1,000") = .num 1000 ∧
      clean_rating_cell (.str "no data") = .na :=
  ⟨count_eq_spec v, by with_unfolding_all rfl, by with_unfolding_all rfl,
    by with_unfolding_all rfl⟩

/-- C8: every per-cell cleaner is total and maps every cell to absence or a
value of the target type: never a leftover string, ratings in `[0, 5]`,
counts natural numbers. -/
theorem c8_per_cell_totality (v : Cell) (rn : Bool) :
    numOrNa (clean_value rn v) ∧ numOrNa (extract_rating_from_text v) ∧
      numOrNa (clean_rating_cell v) ∧ ratingRange (extract_rating_from_text v) ∧
      countNat (clean_rating_cell v) := by
  refine ⟨clean_value_numOrNa rn v, extract_numOrNa v, ?_, extract_ratingRange v, ?_⟩
  · rcases count_cases v with h | ⟨n, h⟩ <;> rw [h] <;> trivial
  · rcases count_cases v with h | ⟨n, h⟩ <;> rw [h]
    · trivial
    · exact ⟨n, rfl⟩


/-! ### Derived features and pipeline frame (C4, C5, C7, C9) -/

/-- C4: `discount_percent` is back-filled with `(mrp - price) / mrp * 100`
rounded to two decimals exactly when it was absent and both cleaned price
and mrp are present, and is left untouched otherwise — including when an
originally present value disagrees with price and mrp. -/
theorem c4_discount_backfill (L : ℚ → ℚ) (r : Row) :
    (preprocessRow L r).discount_percent =
      (match r.discount_percent, clean_value true r.price, clean_value true r.mrp with
       | .na, .num p, .num m => Cell.num (round2 ((m - p) / m * 100))
       | d, _, _ => d) ∧
      (preprocessRow L rowEx80).discount_percent = .num 20 ∧
      (preprocessRow L rowEx80d).discount_percent = .num 77 :=
  ⟨rfl, by with_unfolding_all rfl, rfl⟩

/-- C5: `price_mrp_ratio` is `price / mrp` exactly when both cleaned
values are present and `mrp > 0` (absent otherwise), and
`suspicious_pricing` is the integer flag `ratio < 0.5`, with absence of
the ratio mapping to 0, never to absence. -/
theorem c5_ratio_flag (L : ℚ → ℚ) (r : Row) :
    (preprocessRow L r).price_mrp_ratio =
      (match clean_value true r.price, clean_value true r.mrp with
       | .num p, .num m => if 0 < m then Cell.num (p / m) else Cell.na
       | _, _ => Cell.na) ∧
    (preprocessRow L r).suspicious_pricing =
      (match (preprocessRow L r).price_mrp_ratio with
       | .num x => Cell.num (if x < 1 / 2 then 1 else 0)
       | _ => Cell.num 0) ∧
    (preprocessRow L rowEx40).suspicious_pricing = .num 1 ∧
    (preprocessRow L rowEx60).suspicious_pricing = .num 0 ∧
    (preprocessRow L rowExMrp).suspicious_pricing = .num 0 :=
  ⟨rfl, rfl, by with_unfolding_all rfl, by with_unfolding_all rfl, by with_unfolding_all rfl⟩

/-- C7: the output table has exactly the input's rows, in order, and each
output row keeps its passthrough cells and untouched text columns; the
four derived columns are the only additions (they are the extra fields of
`Row` written by `preprocessRow`). -/
theorem c7_frame (L : ℚ → ℚ) (df : List Row) :
    (preprocess_data L df).length = df.length ∧
      List.Forall₂ (fun a b => b.extra = a.extra ∧ b.product_name = a.product_name ∧
        b.review_text = a.review_text) df (preprocess_data L df) := by
  constructor
  · simp [preprocess_data]
  · induction df with
    | nil => exact .nil
    | cons a t ih => exact .cons ⟨rfl, rfl, rfl⟩ ih

/-- C9: the script's interleaved step order computes exactly the spec's
canonical order — all base-column cleanings first, then the whole
derived-feature pass — on every row and every table. -/
theorem c9_order_equivalence (L : ℚ → ℚ) (r : Row) (df : List Row) :
    preprocessRow L r = canonicalRow L r ∧
      preprocess_data L df = df.map (canonicalRow L) :=
  ⟨rfl, List.map_congr_left (fun _ _ => rfl)⟩

/-! ### Exponent search and powers of ten -/

theorem findExp_sound : ∀ fuel d start k, findExp fuel d start = some k → 10 ^ k % d = 0 := by
  intro fuel
  induction fuel with
  | zero => intro d start k h; cases h
  | succ f ih =>
    intro d start k h
    rw [findExp] at h
    split at h
    · next hb =>
      cases h
      exact eq_of_beq hb
    · exact ih d (start + 1) k h

theorem findExp_complete : ∀ fuel d start, (∃ j, j < fuel ∧ 10 ^ (start + j) % d = 0) →
    ∃ k, findExp fuel d start = some k := by
  intro fuel
  induction fuel with
  | zero =>
    intro d start h
    obtain ⟨j, hj, _⟩ := h
    omega
  | succ f ih =>
    intro d start h
    obtain ⟨j, hj, hmod⟩ := h
    rw [findExp]
    by_cases hb : 10 ^ start % d = 0
    · exact ⟨start, by rw [if_pos (beq_iff_eq.mpr hb)]⟩
    · have hj0 : j ≠ 0 := by
        intro h0
        subst h0
        rw [Nat.add_zero] at hmod
        exact hb hmod
      rw [if_neg (by simpa using hb)]
      refine ih d (start + 1) ⟨j - 1, by omega, ?_⟩
      have he : start + 1 + (j - 1) = start + j := by omega
      rw [he]
      exact hmod

theorem dvd_ten_pow_self {d K : ℕ} (h : d ∣ 10 ^ K) : d ∣ 10 ^ d := by
  have h2 : d ∣ 2 ^ K * 5 ^ K := by
    rw [← mul_pow]
    norm_num
    exact h
  obtain ⟨a, b, ha, hb, rfl⟩ := exists_dvd_and_dvd_of_dvd_mul h2
  obtain ⟨i, hi, rfl⟩ := (Nat.dvd_prime_pow Nat.prime_two).mp ha
  obtain ⟨j, hj, rfl⟩ := (Nat.dvd_prime_pow Nat.prime_five).mp hb
  have h5 : 0 < 5 ^ j := by positivity
  have h2i : 0 < 2 ^ i := by positivity
  have hii : i ≤ 2 ^ i * 5 ^ j := by
    have := Nat.lt_two_pow i
    nlinarith
  have hjj : j ≤ 2 ^ i * 5 ^ j := by
    have hj5 : j < 5 ^ j :=
      lt_of_lt_of_le (Nat.lt_two_pow j) (Nat.pow_le_pow_left (by omega) j)
    nlinarith
  calc 2 ^ i * 5 ^ j ∣ 2 ^ (2 ^ i * 5 ^ j) * 5 ^ (2 ^ i * 5 ^ j) :=
      mul_dvd_mul (pow_dvd_pow 2 hii) (pow_dvd_pow 5 hjj)
    _ = 10 ^ (2 ^ i * 5 ^ j) := by rw [← mul_pow]; norm_num

theorem decExpOpt_dvd (d : ℕ) (h : ∃ K, d ∣ 10 ^ K) :
    ∃ k, decExpOpt d = some k ∧ d ∣ 10 ^ k := by
  obtain ⟨K, hK⟩ := h
  have hdd : d ∣ 10 ^ d := dvd_ten_pow_self hK
  have hmod : 10 ^ (0 + d) % d = 0 := by
    rw [Nat.zero_add]
    exact Nat.dvd_iff_mod_eq_zero.mp hdd
  obtain ⟨k, hk⟩ := findExp_complete (d + 1) d 0 ⟨d, by omega, hmod⟩
  exact ⟨k, hk, Nat.dvd_iff_mod_eq_zero.mpr (findExp_sound (d + 1) d 0 k hk)⟩

theorem decFin_den_dvd (q : ℚ) (h : DecFin q) : ∃ K, (q.den : ℕ) ∣ 10 ^ K := by
  obtain ⟨n, k, hq⟩ := h
  refine ⟨k, ?_⟩
  have h1 : q = Rat.divInt (n : ℤ) ((10 : ℤ) ^ k) := by
    rw [Rat.divInt_eq_div]
    push_cast
    exact hq
  have h2 := Rat.den_dvd (n : ℤ) ((10 : ℤ) ^ k)
  rw [← h1] at h2
  have h3 : ((q.den : ℕ) : ℤ) ∣ ((10 ^ k : ℕ) : ℤ) := by
    push_cast
    exact h2
  exact_mod_cast h3

theorem floatReprNN_plain (q : ℚ) (h0 : 0 ≤ q) (hfin : DecFin q)
    (hsci : ¬((q ≠ 0 ∧ q < 1 / 10000) ∨ 10 ^ 16 ≤ q)) :
    ∃ nn k : ℕ, floatReprNN q = plainChars nn k ∧ (nn : ℚ) = q * 10 ^ k := by
  obtain ⟨k, hk, hdvd⟩ := decExpOpt_dvd q.den (decFin_den_dvd q hfin)
  refine ⟨q.num.toNat * (10 ^ k / q.den), k, ?_, ?_⟩
  · unfold floatReprNN
    rw [hk]
    exact if_neg hsci
  · have h1 : ((q.num.toNat : ℕ) : ℚ) = ((q.num : ℤ) : ℚ) := by
      have h2 := Int.toNat_of_nonneg (Rat.num_nonneg.mpr h0)
      exact_mod_cast congrArg (fun z : ℤ => (z : ℚ)) h2
    have hden : ((q.den : ℚ)) ≠ 0 := by
      have := q.den_pos
      positivity
    rw [Nat.cast_mul, h1, Nat.cast_div hdvd hden]
    conv_rhs => rw [← Rat.num_div_den q]
    push_cast
    ring

/-! ### Round trip: plain rendering back through the numeral regex -/

theorem padDigits_strip (k f : ℕ) (hf : f < 10 ^ k) :
    ∃ z, padDigits k f = stripTrailZeros (padDigits k f) ++ List.replicate z '0' ∧
      (stripTrailZeros (padDigits k f)).length + z = k ∧
      charsToNat (stripTrailZeros (padDigits k f)) * 10 ^ z = f := by
  refine ⟨(((padDigits k f).reverse.takeWhile (fun c => c == '0')).length),
    stripTrail_decomp (padDigits k f), ?_, ?_⟩
  · have h1 := congrArg List.length (stripTrail_decomp (padDigits k f))
    rw [List.length_append, List.length_replicate, padDigits_length] at h1
    omega
  · have h2 := congrArg charsToNat (stripTrail_decomp (padDigits k f))
    rw [charsToNat_append_zeros, padDigits_val k f hf] at h2
    omega

theorem plainChars_parts (N k : ℕ) :
    ∃ ip fr, plainChars N k = ip ++ '.' :: fr ∧ ip ≠ [] ∧
      (∀ c ∈ ip, c.isDigit = true) ∧ (∀ c ∈ fr, c.isDigit = true) ∧
      charsToNat ip = N / 10 ^ k ∧
      (charsToNat fr : ℚ) / 10 ^ fr.length = ((N % 10 ^ k : ℕ) : ℚ) / 10 ^ k := by
  have hmod : N % 10 ^ k < 10 ^ k := Nat.mod_lt _ (by positivity)
  obtain ⟨z, hdec, hlen, hval⟩ := padDigits_strip k (N % 10 ^ k) hmod
  by_cases hemp : (stripTrailZeros (padDigits k (N % 10 ^ k))).isEmpty = true
  · refine ⟨natStrChars (N / 10 ^ k), ['0'], ?_, natStr_ne_nil _, natStr_digits _, ?_,
      natStr_val _, ?_⟩
    · simp only [plainChars]
      rw [if_pos hemp]
    · intro c hc
      rw [List.mem_singleton] at hc
      subst hc
      rfl
    · have hz : N % 10 ^ k = 0 := by
        rw [List.isEmpty_iff] at hemp
        rw [hemp] at hval
        simpa [charsToNat] using hval.symm
      have h1 : charsToNat ['0'] = 0 := rfl
      rw [hz, h1]
      simp
  · refine ⟨natStrChars (N / 10 ^ k), stripTrailZeros (padDigits k (N % 10 ^ k)), ?_,
      natStr_ne_nil _, natStr_digits _, ?_, natStr_val _, ?_⟩
    · simp only [plainChars]
      rw [if_neg hemp]
    · intro c hc
      exact padDigits_digits k (N % 10 ^ k) c (stripTrail_sub _ c hc)
    · have hcast : (charsToNat (stripTrailZeros (padDigits k (N % 10 ^ k))) : ℚ) * 10 ^ z =
          ((N % 10 ^ k : ℕ) : ℚ) := by exact_mod_cast hval
      have hk : ((10 : ℚ)) ^ k =
          10 ^ (stripTrailZeros (padDigits k (N % 10 ^ k))).length * 10 ^ z := by
        rw [← pow_add, hlen]
      rw [div_eq_div_iff (by positivity) (by positivity), hk]
      calc (charsToNat (stripTrailZeros (padDigits k (N % 10 ^ k))) : ℚ) *
            (10 ^ (stripTrailZeros (padDigits k (N % 10 ^ k))).length * 10 ^ z) =
          ((charsToNat (stripTrailZeros (padDigits k (N % 10 ^ k))) : ℚ) * 10 ^ z) *
            10 ^ (stripTrailZeros (padDigits k (N % 10 ^ k))).length := by ring
        _ = ((N % 10 ^ k : ℕ) : ℚ) *
            10 ^ (stripTrailZeros (padDigits k (N % 10 ^ k))).length := by rw [hcast]

theorem plain_roundTrip (N k : ℕ) :
    firstNumeral (plainChars N k) = some (plainChars N k) ∧
      numeralVal (plainChars N k) = (N : ℚ) / 10 ^ k ∧
      (∀ c ∈ plainChars N k, c.isDigit = true ∨ c = '.') := by
  obtain ⟨ip, fr, heq, hne, hipd, hfrd, hipv, hfrv⟩ := plainChars_parts N k
  have hdot : ('.'.isDigit) = false := rfl
  have htake : (ip ++ '.' :: fr).takeWhile Char.isDigit = ip := by
    rw [takeWhile_append_all _ hipd, List.takeWhile_cons, hdot]
    simp
  have hdrop : (ip ++ '.' :: fr).dropWhile Char.isDigit = '.' :: fr := by
    rw [dropWhile_append_all _ hipd, List.dropWhile_cons, hdot]
    simp
  have hnum : numTail (ip ++ '.' :: fr) = ip ++ '.' :: fr := by
    simp only [numTail]
    rw [htake, hdrop]
    show ip ++ '.' :: fr.takeWhile Char.isDigit = ip ++ '.' :: fr
    rw [takeWhile_all hfrd]
  have hnv : numeralVal (ip ++ '.' :: fr) =
      (charsToNat ip : ℚ) + (charsToNat fr : ℚ) / 10 ^ fr.length := by
    simp only [numeralVal]
    rw [htake, hdrop]
    rfl
  refine ⟨?_, ?_, ?_⟩
  · rw [heq]
    cases hip : ip with
    | nil => exact absurd hip hne
    | cons c t =>
      have hc : c.isDigit = true := hipd c (hip ▸ List.mem_cons_self c t)
      rw [List.cons_append, firstNumeral, if_pos hc, ← List.cons_append, ← hip, hnum]
  · rw [heq, hnv, hipv, hfrv]
    have hdm : (10 ^ k : ℕ) * (N / 10 ^ k) + N % 10 ^ k = N := Nat.div_add_mod N (10 ^ k)
    have hdm2 : ((10 : ℚ)) ^ k * ((N / 10 ^ k : ℕ) : ℚ) + ((N % 10 ^ k : ℕ) : ℚ) = (N : ℚ) := by
      exact_mod_cast hdm
    have hk0 : ((10 : ℚ)) ^ k ≠ 0 := by positivity
    field_simp
    linarith
  · intro c hc
    rw [heq] at hc
    rcases List.mem_append.mp hc with h | h
    · exact Or.inl (hipd c h)
    · rcases List.mem_cons.mp h with h2 | h2
      · exact Or.inr h2
      · exact Or.inl (hfrd c h2)

theorem floatRepr_roundTrip (q : ℚ) (h0 : 0 ≤ q) (hfin : DecFin q)
    (hsci : ¬((q ≠ 0 ∧ q < 1 / 10000) ∨ 10 ^ 16 ≤ q)) :
    firstNumeral (floatReprChars q) = some (floatReprChars q) ∧
      numeralVal (floatReprChars q) = q ∧
      (∀ c ∈ floatReprChars q, c.isDigit = true ∨ c = '.') := by
  obtain ⟨nn, k, hrepr, hval⟩ := floatReprNN_plain q h0 hfin hsci
  have hchars : floatReprChars q = plainChars nn k := by
    unfold floatReprChars
    rw [if_neg (not_lt.mpr h0), hrepr]
  obtain ⟨h1, h2, h3⟩ := plain_roundTrip nn k
  rw [hchars]
  refine ⟨h1, ?_, h3⟩
  rw [h2, hval]
  have hk0 : ((10 : ℚ)) ^ k ≠ 0 := by positivity
  field_simp

/-! ### Fixpoints of re-cleaning already cleaned cells -/

theorem extract_num_fix (q : ℚ) (h0 : 0 ≤ q) (h5 : q ≤ 5) (hfin : DecFin q)
    (hp : q = 0 ∨ 1 / 10000 ≤ q) :
    extract_rating_from_text (Cell.num q) = Cell.num q := by
  have hsci : ¬((q ≠ 0 ∧ q < 1 / 10000) ∨ 10 ^ 16 ≤ q) := by
    push_neg
    refine ⟨fun hne => ?_, ?_⟩
    · rcases hp with h | h
      · exact absurd h hne
      · exact h
    · have h16 : (5 : ℚ) < 10 ^ 16 := by norm_num
      linarith
  obtain ⟨hfn, hval, _⟩ := floatRepr_roundTrip q h0 hfin hsci
  have hdata : (cellStr (Cell.num q)).data = floatReprChars q := rfl
  have hE := extract_of_some (Cell.num q) (floatReprChars q) (by simp)
    (by rw [hdata]; exact hfn)
  rw [hE, hval]
  unfold rescaleSpec clampRejectSpec
  rw [if_pos h5, if_neg (by push_neg; exact ⟨h0, h5⟩)]

theorem isDigit_ne_comma (c : Char) (h : c.isDigit = true) : (c != ',') = true := by
  rw [bne_iff_ne]
  intro he
  subst he
  exact absurd h (by decide)

theorem isDigit_ne_minus (c : Char) (h : c.isDigit = true) : (c != '-') = true := by
  rw [bne_iff_ne]
  intro he
  subst he
  exact absurd h (by decide)

theorem filter_comma_id (l : List Char) (hc : ∀ c ∈ l, c.isDigit = true ∨ c = '.') :
    l.filter (fun c => c != ',') = l := by
  rw [List.filter_eq_self]
  intro a ha
  rcases hc a ha with h | h
  · exact isDigit_ne_comma a h
  · subst h; decide

theorem filter_minus_id (l : List Char) (hc : ∀ c ∈ l, c.isDigit = true ∨ c = '.') :
    l.filter (fun c => c != '-') = l := by
  rw [List.filter_eq_self]
  intro a ha
  rcases hc a ha with h | h
  · exact isDigit_ne_minus a h
  · subst h; decide

theorem firstDigitRun_block (ip fr : List Char) (hne : ip ≠ [])
    (hipd : ∀ c ∈ ip, c.isDigit = true) :
    firstDigitRun (ip ++ '.' :: fr) = some ip := by
  cases hip : ip with
  | nil => exact absurd hip hne
  | cons c t =>
    subst hip
    have hc : c.isDigit = true := hipd c (List.mem_cons_self c t)
    rw [List.cons_append, firstDigitRun, if_pos hc, ← List.cons_append]
    congr 1
    rw [takeWhile_append_all _ hipd, List.takeWhile_cons,
      show ('.'.isDigit) = false from rfl]
    simp

theorem count_num_fix (n : ℕ) (hn : (n : ℚ) < 10 ^ 16) :
    clean_rating_cell (Cell.num (n : ℚ)) = Cell.num (n : ℚ) := by
  have h0 : 0 ≤ (n : ℚ) := by positivity
  have hfin : DecFin (n : ℚ) := ⟨n, 0, by simp⟩
  have hsci : ¬(((n : ℚ) ≠ 0 ∧ (n : ℚ) < 1 / 10000) ∨ 10 ^ 16 ≤ (n : ℚ)) := by
    push_neg
    refine ⟨fun hne => ?_, hn⟩
    have h1 : 1 ≤ n := by
      rcases Nat.eq_zero_or_pos n with h | h
      · subst h; exact absurd (by norm_num) hne
      · exact h
    have h2 : (1 : ℚ) ≤ (n : ℚ) := by exact_mod_cast h1
    linarith [show (1 : ℚ) / 10000 ≤ 1 by norm_num]
  obtain ⟨nn, k, hrepr, hval⟩ := floatReprNN_plain (n : ℚ) h0 hfin hsci
  have hchars : floatReprChars (n : ℚ) = plainChars nn k := by
    unfold floatReprChars
    rw [if_neg (not_lt.mpr h0), hrepr]
  obtain ⟨ip, fr, heq, hnemp, hipd, hfrd, hipv, hfrv⟩ := plainChars_parts nn k
  have hclass := (plain_roundTrip nn k).2.2
  rw [heq] at hclass
  have hdata : (cellStr (Cell.num (n : ℚ))).data = ip ++ '.' :: fr := by
    show floatReprChars (n : ℚ) = ip ++ '.' :: fr
    rw [hchars, heq]
  have hbody : clean_rating_cell (Cell.num (n : ℚ)) =
      (match firstDigitRun ((((cellStr (Cell.num (n : ℚ))).data.filter
          (fun c => c != ',')).filter (fun c => c != '-'))) with
       | some ds => Cell.num (charsToNat ds)
       | none => Cell.na) := rfl
  rw [hbody, hdata, filter_comma_id _ hclass, filter_minus_id _ hclass,
    firstDigitRun_block ip fr hnemp hipd]
  have hnn : nn = n * 10 ^ k := by exact_mod_cast hval
  show Cell.num ((charsToNat ip : ℕ) : ℚ) = Cell.num (n : ℚ)
  rw [hipv, hnn, Nat.mul_div_cancel _ (by positivity)]

theorem extract_fix_of_plain (v : Cell)
    (h : plainRatB (extract_rating_from_text v) = true) :
    extract_rating_from_text (extract_rating_from_text v) = extract_rating_from_text v := by
  rcases extract_cases v with hna | ⟨q, hq, h0, h5, hfin⟩
  · rw [hna]
    rfl
  · rw [hq] at h ⊢
    have hp : q = 0 ∨ 1 / 10000 ≤ q := by simpa [plainRatB] using h
    exact extract_num_fix q h0 h5 hfin hp

theorem count_fix_of_ok (v : Cell)
    (h : countOkB (clean_rating_cell v) = true) :
    clean_rating_cell (clean_rating_cell v) = clean_rating_cell v := by
  rcases count_cases v with hna | ⟨n, hn⟩
  · rw [hna]
    rfl
  · rw [hn] at h ⊢
    have hq : (n : ℚ) < 10 ^ 16 := by simpa [countOkB] using h
    exact count_num_fix n hq

/-! ### Idempotence of the remaining steps -/

theorem clean_value_idem (v : Cell) :
    clean_value true (clean_value true v) = clean_value true v := by
  cases v with
  | na => rfl
  | num q =>
    by_cases h : 0 ≤ q
    · have h1 : clean_value true (Cell.num q) = Cell.num q := by simp [clean_value, h]
      rw [h1, h1]
    · have h1 : clean_value true (Cell.num q) = Cell.na := by simp [clean_value, h]
      rw [h1]
      rfl
  | str t =>
    cases hp : pyFloatOpt (filterNum (pyStrip t.data)) with
    | none =>
      have h1 : clean_value true (Cell.str t) = Cell.na := by simp [clean_value, hp]
      rw [h1]
      rfl
    | some q =>
      by_cases h : q < 0
      · have h1 : clean_value true (Cell.str t) = Cell.na := by simp [clean_value, hp, h]
        rw [h1]
        rfl
      · have h1 : clean_value true (Cell.str t) = Cell.num q := by simp [clean_value, hp, h]
        rw [h1]
        simp [clean_value, not_lt.mp h]

theorem discountStep_idem (d p m : Cell) :
    discountStep (discountStep d p m) p m = discountStep d p m := by
  cases d with
  | na =>
    cases p with
    | num pv => cases m <;> rfl
    | na => cases m <;> rfl
    | str t => cases m <;> rfl
  | num q => rfl
  | str t => rfl

theorem firstTokenCell_cases (t : String) :
    firstTokenCell t = Cell.na ∨ ∃ w, firstTokenCell t = Cell.str w := by
  unfold firstTokenCell
  split
  · left; rfl
  · right; exact ⟨_, rfl⟩

theorem brandStep_idem (b pn : Cell) : brandStep (brandStep b pn) pn = brandStep b pn := by
  cases b with
  | na =>
    cases pn with
    | str t =>
      rcases firstTokenCell_cases t with h | ⟨w, h⟩
      · show brandStep (firstTokenCell t) (Cell.str t) = firstTokenCell t
        rw [h]
        exact h
      · show brandStep (firstTokenCell t) (Cell.str t) = firstTokenCell t
        rw [h]
        rfl
    | na => rfl
    | num q => rfl
  | num q => rfl
  | str t => rfl

theorem fillUnknown_idem (c : Cell) : fillUnknown (fillUnknown c) = fillUnknown c := by
  cases c <;> rfl

theorem preprocessRow_idem (L : ℚ → ℚ) (r : Row)
    (h1 : plainRatB (extract_rating_from_text r.product_rating) = true)
    (h2 : plainRatB (extract_rating_from_text r.review_rating) = true)
    (h3 : countOkB (clean_rating_cell r.num_ratings) = true) :
    preprocessRow L (preprocessRow L r) = preprocessRow L r := by
  have hpr := extract_fix_of_plain r.product_rating h1
  have hrr := extract_fix_of_plain r.review_rating h2
  have hnr := count_fix_of_ok r.num_ratings h3
  have hpc := clean_value_idem r.price
  have hmc := clean_value_idem r.mrp
  refine Row.ext ?_ ?_ ?_ ?_ ?_ ?_ ?_ ?_ ?_ ?_ ?_ ?_ ?_ ?_ ?_ ?_
  · rfl
  · exact brandStep_idem r.brand r.product_name
  · exact fillUnknown_idem r.platform
  · exact fillUnknown_idem r.seller_name
  · exact hpc
  · exact hmc
  · show discountStep
        (discountStep r.discount_percent (clean_value true r.price) (clean_value true r.mrp))
        (clean_value true (clean_value true r.price))
        (clean_value true (clean_value true r.mrp)) =
      discountStep r.discount_percent (clean_value true r.price) (clean_value true r.mrp)
    rw [hpc, hmc]
    exact discountStep_idem _ _ _
  · exact hpr
  · exact hrr
  · exact hnr
  · rfl
  · show ratioStep (clean_value true (clean_value true r.price))
        (clean_value true (clean_value true r.mrp)) =
      ratioStep (clean_value true r.price) (clean_value true r.mrp)
    rw [hpc, hmc]
  · show suspStep (ratioStep (clean_value true (clean_value true r.price))
        (clean_value true (clean_value true r.mrp))) =
      suspStep (ratioStep (clean_value true r.price) (clean_value true r.mrp))
    rw [hpc, hmc]
  · rfl
  · show rqsStep L (extract_rating_from_text (extract_rating_from_text r.product_rating))
        (clean_rating_cell (clean_rating_cell r.num_ratings)) =
      rqsStep L (extract_rating_from_text r.product_rating) (clean_rating_cell r.num_ratings)
    rw [hpr, hnr]
  · rfl

/-- C6 (amended): the cleaning pass is idempotent on every table whose
cleaned rating cells render in plain decimal notation (each cleaned rating
is 0 or at least `1e-4`) and whose cleaned rating counts are below `1e16`;
the counterexample `c6_not_idempotent` shows the restriction is needed. -/
theorem c6_idempotent_amended (L : ℚ → ℚ) (df : List Row)
    (h : ∀ r ∈ df, plainRatB (extract_rating_from_text r.product_rating) = true ∧
      plainRatB (extract_rating_from_text r.review_rating) = true ∧
      countOkB (clean_rating_cell r.num_ratings) = true) :
    preprocess_data L (preprocess_data L df) = preprocess_data L df := by
  unfold preprocess_data
  rw [List.map_map]
  refine List.map_congr_left ?_
  intro a ha
  exact preprocessRow_idem L a (h a ha).1 (h a ha).2.1 (h a ha).2.2

/-- C6 witness: the amended idempotence at a concrete one-row table. -/
theorem c6_idempotent_amended_witness :
    preprocess_data (fun x => x) (preprocess_data (fun x => x) [rowExPlain]) =
      preprocess_data (fun x => x) [rowExPlain] :=
  c6_idempotent_amended (fun x => x) [rowExPlain] (by
    intro r hr
    rw [List.mem_singleton] at hr
    subst hr
    refine ⟨?_, ?_, ?_⟩ <;> with_unfolding_all rfl)

/-- C6 counterexample: the cleaning pass is not idempotent as claimed —
on a table whose `product_rating` cell is `"0.00001"`, the first pass
stores `1e-05` and the second pass re-extracts `1.0` from its scientific
rendering, changing the table. -/
theorem c6_not_idempotent :
    ¬ (preprocess_data (fun x => x) (preprocess_data (fun x => x) [rowSci]) =
        preprocess_data (fun x => x) [rowSci]) := by
  intro h
  have h2 : preprocessRow (fun x => x) (preprocessRow (fun x => x) rowSci) =
      preprocessRow (fun x => x) rowSci := by
    have h3 := congrArg (fun l => l.head?) h
    simpa [preprocess_data] using h3
  have h4 := congrArg Row.product_rating h2
  have e1 : (preprocessRow (fun x => x) (preprocessRow (fun x => x) rowSci)).product_rating =
      Cell.num 1 := by with_unfolding_all rfl
  have e2 : (preprocessRow (fun x => x) rowSci).product_rating = Cell.num (1 / 100000) := by
    with_unfolding_all rfl
  rw [e1, e2] at h4
  have h5 : (1 : ℚ) = 1 / 100000 := by injection h4
  norm_num at h5

/-- C10: on every non-absent cell whose text contains a numeral, the
extractor never returns a negative value and keeps results in `[0, 5]`;
it returns absence exactly when the first matched number exceeds 50; a
matched 10 is halved to exactly 5.0 and kept; matches in `(5, 10]` are
halved into `(2.5, 5]` and kept. -/
theorem c10_rating_boundaries (v : Cell) (m : List Char) (hv : v ≠ .na)
    (hm : firstNumeral (cellStr v).data = some m) :
    (extract_rating_from_text v = .na ↔ 50 < numeralVal m) ∧
      (∀ q, extract_rating_from_text v = .num q → 0 ≤ q ∧ q ≤ 5) ∧
      (numeralVal m = 10 → extract_rating_from_text v = .num 5) ∧
      (5 < numeralVal m → numeralVal m ≤ 10 →
        extract_rating_from_text v = .num (numeralVal m / 2) ∧
          5 / 2 < numeralVal m / 2 ∧ numeralVal m / 2 ≤ 5) := by
  have hn0 := numeralVal_nonneg m
  have hE := extract_of_some v m hv hm
  refine ⟨?_, ?_, ?_, ?_⟩
  · rw [hE]
    unfold rescaleSpec clampRejectSpec
    rcases le_or_lt (numeralVal m) 5 with h5 | h5
    · rw [if_pos h5, if_neg (by push_neg; exact ⟨hn0, h5⟩)]
      constructor
      · intro hc; exact absurd hc (by simp)
      · intro hc; linarith
    · rw [if_neg (not_le.mpr h5)]
      rcases le_or_lt (numeralVal m) 10 with h10 | h10
      · rw [if_neg (not_lt.mpr h10),
          if_neg (by push_neg; constructor <;> linarith)]
        constructor
        · intro hc; exact absurd hc (by simp)
        · intro hc; linarith
      · rw [if_pos h10]
        by_cases h50 : numeralVal m ≤ 50
        · rw [if_neg (by push_neg; constructor <;> linarith)]
          constructor
          · intro hc; exact absurd hc (by simp)
          · intro hc; linarith
        · push_neg at h50
          rw [if_pos (Or.inr (by linarith))]
          exact ⟨fun _ => h50, fun _ => rfl⟩
  · intro q hq
    rw [hE] at hq
    unfold clampRejectSpec at hq
    by_cases hcl : rescaleSpec (numeralVal m) < 0 ∨ 5 < rescaleSpec (numeralVal m)
    · rw [if_pos hcl] at hq
      exact absurd hq (by simp)
    · rw [if_neg hcl] at hq
      push_neg at hcl
      injection hq with hq2
      rw [← hq2]
      exact ⟨hcl.1, hcl.2⟩
  · intro h10
    rw [hE, h10]
    norm_num [rescaleSpec, clampRejectSpec]
  · intro h5 h10
    rw [hE]
    unfold rescaleSpec clampRejectSpec
    rw [if_neg (not_le.mpr h5), if_neg (not_lt.mpr h10),
      if_neg (by push_neg; constructor <;> linarith)]
    exact ⟨rfl, by linarith, by linarith⟩

/-- C10 witness: the boundary behavior at the concrete cell `"9"`. -/
theorem c10_rating_boundaries_witness :
    ((extract_rating_from_text (Cell.str "9") = .na ↔ 50 < numeralVal ['9']) ∧
      (∀ q, extract_rating_from_text (Cell.str "9") = .num q → 0 ≤ q ∧ q ≤ 5) ∧
      (numeralVal ['9'] = 10 → extract_rating_from_text (Cell.str "9") = .num 5) ∧
      (5 < numeralVal ['9'] → numeralVal ['9'] ≤ 10 →
        extract_rating_from_text (Cell.str "9") = .num (numeralVal ['9'] / 2) ∧
          5 / 2 < numeralVal ['9'] / 2 ∧ numeralVal ['9'] / 2 ≤ 5)) :=
  c10_rating_boundaries (Cell.str "9") ['9'] (by simp) (by with_unfolding_all rfl)
end EV
